import Mathlib

/-!
Verification of `bruceesmith/stack`

A shallow embedding of `stack.go`: the linked chain of `element`s, the `Stack`
record with its three fields `top`, `mut` (spelled `mutex`) and `size`, and
the five methods. A method is a function from the state before the call to
`some` of its results and the state after it, or to `none` when the call
panics.

* A `*element[T]` is `Option (element T)`: `none` is Go's `nil`. A pointer is
  identified with the chain it leads to; the chains that `Push` builds are
  finite and acyclic, and so are those of the model.
* Go's `int` is a two's-complement machine word, 64 bits wide on the 64-bit
  targets modelled here; `s.size++` and `s.size--` wrap, which `wrapInt` makes
  explicit, and the field `size` ranges over `GoInt`.
* The zero value of `T` (`var v T`) is `default` of an `Inhabited T`.
* `mut` is a `*sync.Mutex`, nil or set. Every method starts with
  `s.mut.Lock()`, which panics with a nil pointer dereference when `mut` is
  nil, before any field is read or written. Calls are made one after the
  other, and each releases the mutex when it returns (`defer s.mut.Unlock()`),
  so a mutex that is set is free whenever a call starts.
-/

namespace stack

/-! ## Go's `int` -/

/-- Smallest value of Go's 64-bit `int`. -/
def minInt : Int := -9223372036854775808

/-- Largest value of Go's 64-bit `int`. -/
def maxInt : Int := 9223372036854775807

/-- Two's-complement wrap-around of a mathematical integer into Go's `int`. -/
def wrapInt (x : Int) : Int :=
  (x + 9223372036854775808) % 18446744073709551616 - 9223372036854775808

/-- Go's `int`: the integers from `minInt` to `maxInt`. -/
def GoInt : Type := { x : Int // minInt ≤ x ∧ x ≤ maxInt }

instance : DecidableEq GoInt := by
  unfold GoInt; infer_instance

/-- The `int` that a Go arithmetic operation with exact result `x` yields. -/
def GoInt.wrap (x : Int) : GoInt :=
  ⟨wrapInt x, by unfold wrapInt minInt maxInt; omega⟩

/-- The `int` constant `0`. -/
def GoInt.zero : GoInt := ⟨0, by unfold minInt maxInt; omega⟩

/-! ## Data model -/

/-- Go: `type element[T any] struct { value T; next *element[T] }`. -/
inductive element (T : Type) where
  | mk (value : T) (next : Option (element T)) : element T

/-- Field `value` of an element. -/
def element.value {T : Type} : element T → T
  | .mk v _ => v

/-- Field `next` of an element. -/
def element.next {T : Type} : element T → Option (element T)
  | .mk _ n => n

/-- Values held by an element and by everything linked below it. -/
def element.values {T : Type} : element T → List T
  | .mk v none => [v]
  | .mk v (some n) => v :: n.values

/-- Values of the chain hanging off a pointer, read from the top downward. -/
def chain {T : Type} : Option (element T) → List T
  | none => []
  | some e => e.values

/-- Number of elements in the chain hanging off a pointer. -/
def chainLen {T : Type} (p : Option (element T)) : Nat := (chain p).length

/-- Go: `sync.Mutex`, as calls made one after the other find it: free. -/
inductive Mutex where
  | mk : Mutex
  deriving DecidableEq

/-- Go: `type Stack[T any] struct { top *element[T]; mut *sync.Mutex; size int }`.
The field `mut` is spelled `mutex`, `mut` being a reserved word. -/
structure Stack (T : Type) where
  top : Option (element T)
  mutex : Option Mutex
  size : GoInt

/-! ## Operations -/

/-- Go: `New`: the composite literal sets `mut` and leaves `top` nil and `size`
zero. -/
def New {T : Type} : Stack T :=
  { top := none, mutex := some Mutex.mk, size := GoInt.zero }

/-- Go's zero value `Stack[T]{}`, what `var s stack.Stack[T]` declares: all
three fields zero, so `mut` is nil. -/
def zeroStack {T : Type} : Stack T :=
  { top := none, mutex := none, size := GoInt.zero }

/-- Go: `IsEmpty`: `s.mut.Lock()`, which panics on a nil `mut` (`none`), then
`return s.size == 0`. -/
def Stack.IsEmpty {T : Type} (s : Stack T) : Option (Bool × Stack T) :=
  match s.mutex with
  | none => none
  | some _ => some (decide (s.size.val = 0), s)

/-- Go: `Peek`: `s.mut.Lock()`, which panics on a nil `mut` (`none`), then
the zero value and false when `top` is nil, the value of the top element and
true otherwise. -/
def Stack.Peek {T : Type} [Inhabited T] (s : Stack T) : Option ((T × Bool) × Stack T) :=
  match s.mutex with
  | none => none
  | some _ =>
    match s.top with
    | none => some ((default, false), s)
    | some e => some ((e.value, true), s)

/-- Go: `Pop`: `s.mut.Lock()`, which panics on a nil `mut` (`none`), then the
zero value and false when `top` is nil; otherwise the value of the top element
and true, after `s.top = s.top.next` and `s.size--`. -/
def Stack.Pop {T : Type} [Inhabited T] (s : Stack T) : Option ((T × Bool) × Stack T) :=
  match s.mutex with
  | none => none
  | some _ =>
    match s.top with
    | none => some ((default, false), s)
    | some e =>
      some ((e.value, true), { s with top := e.next, size := GoInt.wrap (s.size.val - 1) })

/-- Go: `Push`: `s.mut.Lock()`, which panics on a nil `mut` (`none`), then a
new element holding `v` whose `next` is the old top becomes the top, and
`s.size++`. -/
def Stack.Push {T : Type} (s : Stack T) (v : T) : Option (Stack T) :=
  match s.mutex with
  | none => none
  | some _ =>
    some { s with top := some (element.mk v s.top), size := GoInt.wrap (s.size.val + 1) }

/-- Go: `Size`: `s.mut.Lock()`, which panics on a nil `mut` (`none`), then
`return s.size`. -/
def Stack.Size {T : Type} (s : Stack T) : Option (GoInt × Stack T) :=
  match s.mutex with
  | none => none
  | some _ => some (s.size, s)

/-- The mutex of the stack is set, as `New()` sets it. -/
def HasMutex {T : Type} (s : Stack T) : Prop := s.mutex ≠ none

instance {T : Type} (s : Stack T) : Decidable (HasMutex s) := by
  unfold HasMutex; infer_instance

/-! ## Call sequences -/

/-- One call on a stack, as a client issues it. -/
inductive Op (T : Type) where
  | isEmpty : Op T
  | peek : Op T
  | pop : Op T
  | push (v : T) : Op T
  | size : Op T

/-- What a call returned. -/
inductive Ret (T : Type) where
  | isEmpty (b : Bool) : Ret T
  | peek (value : T) (ok : Bool) : Ret T
  | pop (value : T) (ok : Bool) : Ret T
  | push : Ret T
  | size (n : GoInt) : Ret T

/-- Perform one call: its return and the state it leaves, `none` on a panic. -/
def step {T : Type} [Inhabited T] (s : Stack T) : Op T → Option (Ret T × Stack T)
  | .isEmpty =>
    match s.IsEmpty with
    | none => none
    | some (b, t) => some (.isEmpty b, t)
  | .peek =>
    match s.Peek with
    | none => none
    | some ((v, ok), t) => some (.peek v ok, t)
  | .pop =>
    match s.Pop with
    | none => none
    | some ((v, ok), t) => some (.pop v ok, t)
  | .push v =>
    match s.Push v with
    | none => none
    | some t => some (.push, t)
  | .size =>
    match s.Size with
    | none => none
    | some (n, t) => some (.size n, t)

/-- Perform a sequence of calls in order: the returns and the final state; a
panic ends the run. -/
def run {T : Type} [Inhabited T] (s : Stack T) :
    List (Op T) → Option (List (Ret T) × Stack T)
  | [] => some ([], s)
  | op :: ops =>
    match step s op with
    | none => none
    | some (r, t) =>
      match run t ops with
      | none => none
      | some (rs, u) => some (r :: rs, u)

/-- The states that a sequence of calls leaves, one after each call. -/
def runStates {T : Type} [Inhabited T] (s : Stack T) :
    List (Op T) → Option (List (Stack T))
  | [] => some []
  | op :: ops =>
    match step s op with
    | none => none
    | some (_, t) =>
      match runStates t ops with
      | none => none
      | some ts => some (t :: ts)

/-- Number of `Push` calls in a sequence. -/
def pushCount {T : Type} : List (Op T) → Nat
  | [] => 0
  | .push _ :: ops => pushCount ops + 1
  | _ :: ops => pushCount ops

/-- Number of `Pop` calls among the returns that came back with `ok = true`. -/
def okPopCount {T : Type} : List (Ret T) → Nat
  | [] => 0
  | .pop _ true :: rs => okPopCount rs + 1
  | _ :: rs => okPopCount rs

/-- `Push(v1)`, `Push(v2)`, ..., `Push(vn)` in that order. -/
def pushAll {T : Type} (s : Stack T) : List T → Option (Stack T)
  | [] => some s
  | v :: vs =>
    match s.Push v with
    | none => none
    | some t => pushAll t vs

/-- `n` calls of `Pop` in a row: what each returned, and the final state. -/
def popN {T : Type} [Inhabited T] : Nat → Stack T → Option (List (T × Bool) × Stack T)
  | 0, s => some ([], s)
  | n + 1, s =>
    match s.Pop with
    | none => none
    | some (r, t) =>
      match popN n t with
      | none => none
      | some (rs, u) => some (r :: rs, u)

/-- `k` calls of `Peek` in a row: what each returned, and the final state. -/
def peekN {T : Type} [Inhabited T] : Nat → Stack T → Option (List (T × Bool) × Stack T)
  | 0, s => some ([], s)
  | k + 1, s =>
    match s.Peek with
    | none => none
    | some (r, t) =>
      match peekN k t with
      | none => none
      | some (rs, u) => some (r :: rs, u)

/-- The chain of the stack has a length that an `int` can hold. Every chain
that exists in memory does: an element occupies at least the eight bytes of
its `next` pointer, so fewer than `2^61` elements fit a 64-bit address space. -/
def ChainFits {T : Type} (s : Stack T) : Prop := (chainLen s.top : Int) ≤ maxInt

instance {T : Type} (s : Stack T) : Decidable (ChainFits s) := by
  unfold ChainFits; infer_instance

/-- Every state of a list has a chain that memory can hold. -/
def AllFit {T : Type} (sts : List (Stack T)) : Prop := ∀ t ∈ sts, ChainFits t

instance {T : Type} (sts : List (Stack T)) : Decidable (AllFit sts) := by
  unfold AllFit; infer_instance

/-- The representation invariant: `size` counts the elements of the chain
from `top`, and it is zero exactly when `top` is nil. -/
def Inv {T : Type} (s : Stack T) : Prop :=
  s.size.val = (chainLen s.top : Int) ∧ (s.size.val = 0 ↔ s.top = none)

/-- What a client sees of a return: a size is seen as the integer it denotes. -/
inductive Obs (T : Type) where
  | isEmpty (b : Bool) : Obs T
  | peek (value : T) (ok : Bool) : Obs T
  | pop (value : T) (ok : Bool) : Obs T
  | push : Obs T
  | size (n : Int) : Obs T
  deriving DecidableEq

/-- The observation that a return of the stack amounts to. -/
def Ret.obs {T : Type} : Ret T → Obs T
  | .isEmpty b => .isEmpty b
  | .peek v ok => .peek v ok
  | .pop v ok => .pop v ok
  | .push => .push
  | .size n => .size n.val

/-! ## The list model

The plain list that the stack is compared with: `Push(v)` prepends `v`, `Pop`
removes and returns the head, or returns (zero value, false) on the empty list,
`Peek` returns the head without removing it, `Size` is the length of the list
and `IsEmpty` is `length = 0`. -/

/-- One call on the list model: what it returns and the list it leaves. -/
def modelStep {T : Type} [Inhabited T] (l : List T) : Op T → Obs T × List T
  | .isEmpty => (.isEmpty (decide (l.length = 0)), l)
  | .peek =>
    match l with
    | [] => (.peek default false, l)
    | v :: _ => (.peek v true, l)
  | .pop =>
    match l with
    | [] => (.pop default false, [])
    | v :: rest => (.pop v true, rest)
  | .push v => (.push, v :: l)
  | .size => (.size (l.length : Int), l)

/-- A sequence of calls on the list model: the returns and the final list. -/
def modelRun {T : Type} [Inhabited T] (l : List T) : List (Op T) → List (Obs T) × List T
  | [] => ([], l)
  | op :: ops =>
    ((modelStep l op).1 :: (modelRun (modelStep l op).2 ops).1,
      (modelRun (modelStep l op).2 ops).2)

/-- The lists that a sequence of calls leaves on the model, one after each call. -/
def modelStates {T : Type} [Inhabited T] (l : List T) : List (Op T) → List (List T)
  | [] => []
  | op :: ops => (modelStep l op).2 :: modelStates (modelStep l op).2 ops

/-! ## Arithmetic of `int` -/

theorem wrapInt_eq_self {x : Int} (h1 : minInt ≤ x) (h2 : x ≤ maxInt) : wrapInt x = x := by
  unfold wrapInt
  unfold minInt at h1
  unfold maxInt at h2
  omega

theorem wrapInt_succ (x : Int) : wrapInt (wrapInt x + 1) = wrapInt (x + 1) := by
  unfold wrapInt
  omega

theorem wrapInt_pred (x : Int) : wrapInt (wrapInt x - 1) = wrapInt (x - 1) := by
  unfold wrapInt
  omega

theorem GoInt.wrap_val (x : Int) : (GoInt.wrap x).val = wrapInt x := rfl

/-! ## The chain -/

theorem chain_some {T : Type} (e : element T) : chain (some e) = e.value :: chain e.next := by
  cases e with
  | mk v n => cases n <;> simp [chain, element.values, element.value, element.next]

theorem chainLen_none {T : Type} : chainLen (none : Option (element T)) = 0 := rfl

theorem chainLen_some {T : Type} (e : element T) : chainLen (some e) = chainLen e.next + 1 := by
  simp [chainLen, chain_some]

theorem chainLen_eq_zero {T : Type} (p : Option (element T)) : chainLen p = 0 ↔ p = none := by
  cases p with
  | none => simp [chainLen_none]
  | some e => simp [chainLen_some]

theorem chainLen_range {T : Type} (s : Stack T) (h : ChainFits s) :
    minInt ≤ (chainLen s.top : Int) ∧ (chainLen s.top : Int) ≤ maxInt := by
  unfold ChainFits at h
  refine ⟨?_, h⟩
  unfold minInt
  omega

theorem size_exact_of_wrap {T : Type} (s : Stack T)
    (hw : s.size.val = wrapInt (chainLen s.top)) (hf : ChainFits s) :
    s.size.val = (chainLen s.top : Int) := by
  rw [hw]
  exact wrapInt_eq_self (chainLen_range s hf).1 (chainLen_range s hf).2

/-! ## One call -/

theorem HasMutex.mutex_eq {T : Type} {s : Stack T} (h : HasMutex s) :
    s.mutex = some Mutex.mk := by
  unfold HasMutex at h
  cases hm : s.mutex with
  | none => exact absurd hm h
  | some m => cases m; rfl

theorem hasMutex_of_eq {T : Type} {s t : Stack T} (h : HasMutex s) (e : t.mutex = s.mutex) :
    HasMutex t := by
  unfold HasMutex at *
  rw [e]; exact h

theorem New_hasMutex {T : Type} : HasMutex (New : Stack T) := by
  simp [HasMutex, New]

theorem IsEmpty_of_mutex {T : Type} (s : Stack T) (h : HasMutex s) :
    s.IsEmpty = some (decide (s.size.val = 0), s) := by
  simp only [Stack.IsEmpty, h.mutex_eq]

theorem Size_of_mutex {T : Type} (s : Stack T) (h : HasMutex s) :
    s.Size = some (s.size, s) := by
  simp only [Stack.Size, h.mutex_eq]

theorem Peek_none {T : Type} [Inhabited T] (s : Stack T) (h : HasMutex s)
    (ht : s.top = none) : s.Peek = some ((default, false), s) := by
  simp only [Stack.Peek, h.mutex_eq, ht]

theorem Peek_some {T : Type} [Inhabited T] (s : Stack T) (e : element T) (h : HasMutex s)
    (ht : s.top = some e) : s.Peek = some ((e.value, true), s) := by
  simp only [Stack.Peek, h.mutex_eq, ht]

theorem Pop_none {T : Type} [Inhabited T] (s : Stack T) (h : HasMutex s)
    (ht : s.top = none) : s.Pop = some ((default, false), s) := by
  simp only [Stack.Pop, h.mutex_eq, ht]

theorem Pop_some {T : Type} [Inhabited T] (s : Stack T) (e : element T) (h : HasMutex s)
    (ht : s.top = some e) :
    s.Pop = some ((e.value, true),
      { s with top := e.next, size := GoInt.wrap (s.size.val - 1) }) := by
  simp only [Stack.Pop, h.mutex_eq, ht]

theorem Push_of_mutex {T : Type} (s : Stack T) (v : T) (h : HasMutex s) :
    s.Push v = some
      { s with top := some (element.mk v s.top), size := GoInt.wrap (s.size.val + 1) } := by
  simp only [Stack.Push, h.mutex_eq]

theorem IsEmpty_nil {T : Type} (s : Stack T) (h : s.mutex = none) : s.IsEmpty = none := by
  simp only [Stack.IsEmpty, h]

theorem Size_nil {T : Type} (s : Stack T) (h : s.mutex = none) : s.Size = none := by
  simp only [Stack.Size, h]

theorem Peek_nil {T : Type} [Inhabited T] (s : Stack T) (h : s.mutex = none) :
    s.Peek = none := by
  simp only [Stack.Peek, h]

theorem Pop_nil {T : Type} [Inhabited T] (s : Stack T) (h : s.mutex = none) :
    s.Pop = none := by
  simp only [Stack.Pop, h]

theorem Push_nil {T : Type} (s : Stack T) (v : T) (h : s.mutex = none) : s.Push v = none := by
  simp only [Stack.Push, h]

/-- A `Size` that returns gives the field `size` and leaves the state as it
was. -/
theorem Size_cases {T : Type} (s t : Stack T) (n : GoInt) (h : s.Size = some (n, t)) :
    n = s.size ∧ t = s := by
  by_cases hs : HasMutex s
  case neg => rw [Size_nil s (not_not.1 hs)] at h; cases h
  case pos => rw [Size_of_mutex s hs] at h; cases h; exact ⟨rfl, rfl⟩

/-- A `Peek` that returns leaves the state as it was. -/
theorem Peek_state {T : Type} [Inhabited T] (s : Stack T) (r : T × Bool) (t : Stack T)
    (h : s.Peek = some (r, t)) : t = s := by
  by_cases hs : HasMutex s
  case neg => rw [Peek_nil s (not_not.1 hs)] at h; cases h
  case pos =>
    cases ht : s.top with
    | none => rw [Peek_none s hs ht] at h; cases h; rfl
    | some e => rw [Peek_some s e hs ht] at h; cases h; rfl

/-- What a call that returns has done, case by case. -/
theorem step_cases {T : Type} [Inhabited T] (s : Stack T) (op : Op T) (r : Ret T)
    (t : Stack T) (h : step s op = some (r, t)) :
    HasMutex s ∧
      ((op = .isEmpty ∧ r = .isEmpty (decide (s.size.val = 0)) ∧ t = s)
        ∨ (op = .size ∧ r = .size s.size ∧ t = s)
        ∨ (op = .peek ∧ s.top = none ∧ r = .peek default false ∧ t = s)
        ∨ (∃ e, op = .peek ∧ s.top = some e ∧ r = .peek e.value true ∧ t = s)
        ∨ (op = .pop ∧ s.top = none ∧ r = .pop default false ∧ t = s)
        ∨ (∃ e, op = .pop ∧ s.top = some e ∧ r = .pop e.value true
            ∧ t = { s with top := e.next, size := GoInt.wrap (s.size.val - 1) })
        ∨ (∃ v, op = .push v ∧ r = .push
            ∧ t = { s with top := some (element.mk v s.top),
                           size := GoInt.wrap (s.size.val + 1) })) := by
  by_cases hs : HasMutex s
  case neg =>
    have hm : s.mutex = none := not_not.1 hs
    cases op <;>
      simp [step, IsEmpty_nil s hm, Size_nil s hm, Peek_nil s hm, Pop_nil s hm,
        Push_nil s _ hm] at h
  case pos =>
    refine ⟨hs, ?_⟩
    cases op with
    | isEmpty =>
      simp only [step, IsEmpty_of_mutex s hs] at h
      cases h; simp
    | size =>
      simp only [step, Size_of_mutex s hs] at h
      cases h; simp
    | peek =>
      cases ht : s.top with
      | none =>
        simp only [step, Peek_none s hs ht] at h
        cases h; simp
      | some e =>
        simp only [step, Peek_some s e hs ht] at h
        cases h; simp
    | pop =>
      cases ht : s.top with
      | none =>
        simp only [step, Pop_none s hs ht] at h
        cases h; simp
      | some e =>
        simp only [step, Pop_some s e hs ht] at h
        cases h; simp
    | push v =>
      simp only [step, Push_of_mutex s v hs] at h
      cases h; simp

/-- A call on a stack whose mutex is set returns. -/
theorem step_total {T : Type} [Inhabited T] (s : Stack T) (op : Op T) (h : HasMutex s) :
    ∃ r t, step s op = some (r, t) := by
  cases op with
  | isEmpty => exact ⟨_, _, by simp only [step, IsEmpty_of_mutex s h]; rfl⟩
  | size => exact ⟨_, _, by simp only [step, Size_of_mutex s h]; rfl⟩
  | peek =>
    cases ht : s.top with
    | none => exact ⟨_, _, by simp only [step, Peek_none s h ht]; rfl⟩
    | some e => exact ⟨_, _, by simp only [step, Peek_some s e h ht]; rfl⟩
  | pop =>
    cases ht : s.top with
    | none => exact ⟨_, _, by simp only [step, Pop_none s h ht]; rfl⟩
    | some e => exact ⟨_, _, by simp only [step, Pop_some s e h ht]; rfl⟩
  | push v => exact ⟨_, _, by simp only [step, Push_of_mutex s v h]; rfl⟩

/-- A call that returns leaves the mutex pointer as it was. -/
theorem step_mutex {T : Type} [Inhabited T] (s : Stack T) (op : Op T) (r : Ret T)
    (t : Stack T) (h : step s op = some (r, t)) : t.mutex = s.mutex := by
  obtain ⟨_, hc⟩ := step_cases s op r t h
  rcases hc with ⟨_, _, rfl⟩ | ⟨_, _, rfl⟩ | ⟨_, _, _, rfl⟩ | ⟨e, _, _, _, rfl⟩
    | ⟨_, _, _, rfl⟩ | ⟨e, _, _, _, rfl⟩ | ⟨v, _, _, rfl⟩ <;> rfl

/-! ## Sequences of calls -/

theorem run_cons_some {T : Type} [Inhabited T] (s u : Stack T) (op : Op T) (ops : List (Op T))
    (rets : List (Ret T)) (h : run s (op :: ops) = some (rets, u)) :
    ∃ r t rs, step s op = some (r, t) ∧ run t ops = some (rs, u) ∧ rets = r :: rs := by
  cases h1 : step s op with
  | none => simp [run, h1] at h
  | some p =>
    obtain ⟨r, t⟩ := p
    cases h2 : run t ops with
    | none => simp [run, h1, h2] at h
    | some q =>
      obtain ⟨rs, w⟩ := q
      simp only [run, h1, h2, Option.some.injEq, Prod.mk.injEq] at h
      obtain ⟨rfl, rfl⟩ := h
      exact ⟨r, t, rs, rfl, h2, rfl⟩

theorem run_cons_of {T : Type} [Inhabited T] (s t u : Stack T) (op : Op T)
    (ops : List (Op T)) (r : Ret T) (rs : List (Ret T))
    (h1 : step s op = some (r, t)) (h2 : run t ops = some (rs, u)) :
    run s (op :: ops) = some (r :: rs, u) := by
  simp only [run, h1, h2]

theorem runStates_cons_some {T : Type} [Inhabited T] (s : Stack T) (op : Op T)
    (ops : List (Op T)) (sts : List (Stack T)) (h : runStates s (op :: ops) = some sts) :
    ∃ r t ts, step s op = some (r, t) ∧ runStates t ops = some ts ∧ sts = t :: ts := by
  cases h1 : step s op with
  | none => simp [runStates, h1] at h
  | some p =>
    obtain ⟨r, t⟩ := p
    cases h2 : runStates t ops with
    | none => simp [runStates, h1, h2] at h
    | some ts =>
      simp only [runStates, h1, h2, Option.some.injEq] at h
      exact ⟨r, t, ts, rfl, h2, h.symm⟩

/-- A run on a stack whose mutex is set returns: no call of it panics. -/
theorem run_total {T : Type} [Inhabited T] (ops : List (Op T)) :
    ∀ s : Stack T, HasMutex s →
      ∃ rets u sts, run s ops = some (rets, u) ∧ runStates s ops = some sts := by
  induction ops with
  | nil => intro s _; exact ⟨[], s, [], rfl, rfl⟩
  | cons op ops ih =>
    intro s hs
    obtain ⟨r, t, h1⟩ := step_total s op hs
    obtain ⟨rs, u, ts, h2, h3⟩ := ih t (hasMutex_of_eq hs (step_mutex s op r t h1))
    exact ⟨r :: rs, u, t :: ts, run_cons_of s t u op ops r rs h1 h2,
      by simp only [runStates, h1, h3]⟩

theorem run_mutex {T : Type} [Inhabited T] (ops : List (Op T)) :
    ∀ (s u : Stack T) (rets : List (Ret T)), run s ops = some (rets, u) →
      u.mutex = s.mutex := by
  induction ops with
  | nil => intro s u rets h; simp only [run, Option.some.injEq, Prod.mk.injEq] at h; rw [h.2]
  | cons op ops ih =>
    intro s u rets h
    obtain ⟨r, t, rs, h1, h2, _⟩ := run_cons_some s u op ops rets h
    rw [ih t u rs h2, step_mutex s op r t h1]

/-- One call changes the length of the chain by what it pushed or popped. -/
theorem step_chainLen {T : Type} [Inhabited T] (s t : Stack T) (op : Op T) (r : Ret T)
    (h : step s op = some (r, t)) :
    (chainLen t.top : Int)
      = (chainLen s.top : Int) + (pushCount [op] : Int) - (okPopCount [r] : Int) := by
  obtain ⟨_, hc⟩ := step_cases s op r t h
  rcases hc with ⟨rfl, rfl, rfl⟩ | ⟨rfl, rfl, rfl⟩ | ⟨rfl, _, rfl, rfl⟩ | ⟨e, rfl, _, rfl, rfl⟩
    | ⟨rfl, _, rfl, rfl⟩ | ⟨e, rfl, ht, rfl, rfl⟩ | ⟨v, rfl, rfl, rfl⟩
  · simp [pushCount, okPopCount]
  · simp [pushCount, okPopCount]
  · simp [pushCount, okPopCount]
  · simp [pushCount, okPopCount]
  · simp [pushCount, okPopCount]
  · simp only [pushCount, okPopCount, ht, chainLen_some]
    push_cast; ring
  · simp only [pushCount, okPopCount, chainLen_some, element.next]
    push_cast; ring

theorem pushCount_cons {T : Type} (op : Op T) (ops : List (Op T)) :
    pushCount (op :: ops) = pushCount [op] + pushCount ops := by
  cases op <;> simp [pushCount, Nat.add_comm]

theorem okPopCount_cons {T : Type} (r : Ret T) (rs : List (Ret T)) :
    okPopCount (r :: rs) = okPopCount [r] + okPopCount rs := by
  cases r with
  | pop v ok => cases ok <;> simp [okPopCount, Nat.add_comm]
  | isEmpty b => simp [okPopCount]
  | peek v ok => simp [okPopCount]
  | push => simp [okPopCount]
  | size n => simp [okPopCount]

/-- The chain grows by one for each `Push` and shrinks by one for each `Pop`
that found an element. -/
theorem run_chainLen {T : Type} [Inhabited T] (ops : List (Op T)) :
    ∀ (s u : Stack T) (rets : List (Ret T)), run s ops = some (rets, u) →
      (chainLen u.top : Int)
        = (chainLen s.top : Int) + (pushCount ops : Int) - (okPopCount rets : Int) := by
  induction ops with
  | nil =>
    intro s u rets h
    simp only [run, Option.some.injEq, Prod.mk.injEq] at h
    obtain ⟨rfl, rfl⟩ := h
    simp [pushCount, okPopCount]
  | cons op ops ih =>
    intro s u rets h
    obtain ⟨r, t, rs, h1, h2, rfl⟩ := run_cons_some s u op ops rets h
    rw [ih t u rs h2, step_chainLen s t op r h1, pushCount_cons op ops, okPopCount_cons r rs]
    push_cast; ring

/-- One call keeps `size` the wrapped length of the chain. -/
theorem step_size_wrap {T : Type} [Inhabited T] (s t : Stack T) (op : Op T) (r : Ret T)
    (h : step s op = some (r, t)) (hw : s.size.val = wrapInt (chainLen s.top)) :
    t.size.val = wrapInt (chainLen t.top) := by
  obtain ⟨_, hc⟩ := step_cases s op r t h
  rcases hc with ⟨_, _, rfl⟩ | ⟨_, _, rfl⟩ | ⟨_, _, _, rfl⟩ | ⟨e, _, _, _, rfl⟩
    | ⟨_, _, _, rfl⟩ | ⟨e, _, ht, _, rfl⟩ | ⟨v, _, _, rfl⟩
  · exact hw
  · exact hw
  · exact hw
  · exact hw
  · exact hw
  · simp only [GoInt.wrap_val, hw, ht, chainLen_some]
    rw [wrapInt_pred]; push_cast
    congr 1; ring
  · simp only [GoInt.wrap_val, hw, chainLen_some, element.next]
    rw [wrapInt_succ]; push_cast; rfl

/-- Whatever the calls, `size` stays the wrapped length of the chain. -/
theorem run_size_wrap {T : Type} [Inhabited T] (ops : List (Op T)) :
    ∀ (s u : Stack T) (rets : List (Ret T)), run s ops = some (rets, u) →
      s.size.val = wrapInt (chainLen s.top) → u.size.val = wrapInt (chainLen u.top) := by
  induction ops with
  | nil =>
    intro s u rets h hw
    simp only [run, Option.some.injEq, Prod.mk.injEq] at h
    rw [← h.2]; exact hw
  | cons op ops ih =>
    intro s u rets h hw
    obtain ⟨r, t, rs, h1, h2, _⟩ := run_cons_some s u op ops rets h
    exact ih t u rs h2 (step_size_wrap s t op r h1 hw)

theorem New_size_wrap {T : Type} :
    (New : Stack T).size.val = wrapInt (chainLen (New : Stack T).top) := by
  simp [New, GoInt.zero, chainLen_none, wrapInt]

/-- A run from `New()` returns, in a state with the mutex set where `size` is
the wrapped length of the chain. -/
theorem run_New {T : Type} [Inhabited T] (ops : List (Op T)) :
    ∃ rets u sts, run (New : Stack T) ops = some (rets, u)
      ∧ runStates (New : Stack T) ops = some sts
      ∧ HasMutex u ∧ u.size.val = wrapInt (chainLen u.top) := by
  obtain ⟨rets, u, sts, h, hst⟩ := run_total ops (New : Stack T) New_hasMutex
  exact ⟨rets, u, sts, h, hst, hasMutex_of_eq New_hasMutex (run_mutex ops New u rets h),
    run_size_wrap ops New u rets h New_size_wrap⟩

/-! ## The stack and the list model -/

/-- One call leaves the elements that the same call leaves on the list model. -/
theorem step_chain {T : Type} [Inhabited T] (s t : Stack T) (op : Op T) (r : Ret T)
    (h : step s op = some (r, t)) : chain t.top = (modelStep (chain s.top) op).2 := by
  obtain ⟨_, hc⟩ := step_cases s op r t h
  rcases hc with ⟨rfl, _, rfl⟩ | ⟨rfl, _, rfl⟩ | ⟨rfl, ht, _, rfl⟩ | ⟨e, rfl, ht, _, rfl⟩
    | ⟨rfl, ht, _, rfl⟩ | ⟨e, rfl, ht, _, rfl⟩ | ⟨v, rfl, _, rfl⟩
  · rfl
  · rfl
  · simp [modelStep, ht, chain]
  · simp [modelStep, ht, chain_some]
  · simp [modelStep, ht, chain]
  · simp [modelStep, ht, chain_some]
  · simp [modelStep, chain_some, element.value, element.next]

/-- One call returns what the same call returns on the list model, when `size`
is the length of the chain. -/
theorem step_obs {T : Type} [Inhabited T] (s t : Stack T) (op : Op T) (r : Ret T)
    (h : step s op = some (r, t)) (hs : s.size.val = (chainLen s.top : Int)) :
    r.obs = (modelStep (chain s.top) op).1 := by
  obtain ⟨_, hc⟩ := step_cases s op r t h
  rcases hc with ⟨rfl, rfl, _⟩ | ⟨rfl, rfl, _⟩ | ⟨rfl, ht, rfl, _⟩ | ⟨e, rfl, ht, rfl, _⟩
    | ⟨rfl, ht, rfl, _⟩ | ⟨e, rfl, ht, rfl, _⟩ | ⟨v, rfl, rfl, _⟩
  · simp only [Ret.obs, modelStep, hs]
    congr 1
    simp [chainLen]
  · simp only [Ret.obs, modelStep, hs]
    rfl
  · simp [Ret.obs, modelStep, ht, chain]
  · simp [Ret.obs, modelStep, ht, chain_some]
  · simp [Ret.obs, modelStep, ht, chain]
  · simp [Ret.obs, modelStep, ht, chain_some]
  · simp [Ret.obs, modelStep]

/-- The elements that a run leaves are those of the list model, whatever
`size` holds. -/
theorem run_chain {T : Type} [Inhabited T] (ops : List (Op T)) :
    ∀ (s u : Stack T) (rets : List (Ret T)), run s ops = some (rets, u) →
      chain u.top = (modelRun (chain s.top) ops).2 := by
  induction ops with
  | nil =>
    intro s u rets h
    simp only [run, Option.some.injEq, Prod.mk.injEq] at h
    rw [← h.2]; rfl
  | cons op ops ih =>
    intro s u rets h
    obtain ⟨r, t, rs, h1, h2, _⟩ := run_cons_some s u op ops rets h
    rw [ih t u rs h2, step_chain s t op r h1]
    rfl

/-- After each call of a run the elements are those of the list model. -/
theorem runStates_chain {T : Type} [Inhabited T] (ops : List (Op T)) :
    ∀ (s : Stack T) (sts : List (Stack T)), runStates s ops = some sts →
      sts.map (fun t => chain t.top) = modelStates (chain s.top) ops := by
  induction ops with
  | nil =>
    intro s sts h
    simp only [runStates, Option.some.injEq] at h
    rw [← h]; rfl
  | cons op ops ih =>
    intro s sts h
    obtain ⟨r, t, ts, h1, h2, rfl⟩ := runStates_cons_some s op ops sts h
    simp only [List.map_cons, modelStates]
    rw [ih t ts h2, step_chain s t op r h1]

/-- Every return of a run is the return of the list model, when every state
passed through has a chain that fits. -/
theorem run_refines {T : Type} [Inhabited T] (ops : List (Op T)) :
    ∀ (s u : Stack T) (rets : List (Ret T)) (sts : List (Stack T)),
      run s ops = some (rets, u) → runStates s ops = some sts →
      s.size.val = wrapInt (chainLen s.top) → AllFit (s :: sts) →
      rets.map Ret.obs = (modelRun (chain s.top) ops).1 := by
  induction ops with
  | nil =>
    intro s u rets sts h _ _ _
    simp only [run, Option.some.injEq, Prod.mk.injEq] at h
    rw [← h.1]; rfl
  | cons op ops ih =>
    intro s u rets sts h hst hw hfit
    obtain ⟨r, t, rs, h1, h2, rfl⟩ := run_cons_some s u op ops rets h
    obtain ⟨r2, t2, ts, g1, g2, rfl⟩ := runStates_cons_some s op ops sts hst
    rw [h1] at g1
    simp only [Option.some.injEq, Prod.mk.injEq] at g1
    obtain ⟨rfl, rfl⟩ := g1
    have hs := size_exact_of_wrap s hw (hfit s (List.mem_cons_self _ _))
    have hfit2 : AllFit (t :: ts) := fun x hx => hfit x (List.mem_cons_of_mem _ hx)
    have i1 := ih t u rs ts h2 g2 (step_size_wrap s t op r h1 hw) hfit2
    simp only [List.map_cons, modelRun]
    rw [step_obs s t op r h1 hs, i1, step_chain s t op r h1]

/-! ## Pushes and pops in a row -/

/-- `Push(v)` then `Pop()` on a stack whose mutex is set: both return, `Pop`
gives back `v`, and the state is the one before the `Push`. -/
theorem Push_Pop {T : Type} [Inhabited T] (s : Stack T) (v : T) (h : HasMutex s) :
    ∃ t, s.Push v = some t ∧ HasMutex t ∧ t.Pop = some ((v, true), s) := by
  refine ⟨_, Push_of_mutex s v h, hasMutex_of_eq h rfl, ?_⟩
  rw [Pop_some
    { s with top := some (element.mk v s.top), size := GoInt.wrap (s.size.val + 1) }
    (element.mk v s.top) (hasMutex_of_eq h rfl) rfl]
  have hr := s.size.property
  have hsz : GoInt.wrap ((GoInt.wrap (s.size.val + 1)).val - 1) = s.size := by
    apply Subtype.ext
    simp only [GoInt.wrap_val]
    rw [wrapInt_pred, wrapInt_eq_self] <;> omega
  cases s with
  | mk top mutex size =>
    simp only [element.value, element.next] at *
    rw [hsz]

theorem pushAll_snoc {T : Type} (ws : List T) (v : T) :
    ∀ s : Stack T, pushAll s (ws ++ [v]) = (pushAll s ws).bind (fun t => t.Push v) := by
  induction ws with
  | nil =>
    intro s
    cases h : s.Push v <;> simp [pushAll, h]
  | cons w ws ih =>
    intro s
    cases h : s.Push w with
    | none => simp [pushAll, h]
    | some t => simp only [List.cons_append, pushAll, h]; exact ih t

/-- Pushing a list of values and popping as many times gives the values back
in reverse, each with `ok = true`, and the state before the pushes. -/
theorem popN_pushAll {T : Type} [Inhabited T] (s : Stack T) (h : HasMutex s) (vs : List T) :
    ∃ t, pushAll s vs = some t ∧ HasMutex t
      ∧ popN vs.length t = some (vs.reverse.map (fun v => (v, true)), s) := by
  induction vs using List.reverseRecOn with
  | nil => exact ⟨s, rfl, h, rfl⟩
  | append_singleton ws v ih =>
    obtain ⟨t, h1, h2, h3⟩ := ih
    obtain ⟨t2, g1, g2, g3⟩ := Push_Pop t v h2
    refine ⟨t2, ?_, g2, ?_⟩
    · rw [pushAll_snoc, h1]; exact g1
    · simp only [List.length_append, List.length_singleton, popN, g3, h3]
      simp

/-- Popping as many times as the chain is long returns its values from the top
downward, each with `ok = true`, and leaves `top` nil and `size` zero. -/
theorem popN_drain {T : Type} [Inhabited T] (n : Nat) :
    ∀ s : Stack T, HasMutex s → s.size.val = (chainLen s.top : Int) → chainLen s.top = n →
      ∃ u, popN n s = some ((chain s.top).map (fun v => (v, true)), u)
        ∧ HasMutex u ∧ u.top = none ∧ u.size.val = 0 := by
  induction n with
  | zero =>
    intro s hm hs hn
    have htop := (chainLen_eq_zero s.top).1 hn
    rw [hn] at hs
    exact ⟨s, by simp [popN, htop, chain], hm, htop, by simpa using hs⟩
  | succ n ih =>
    intro s hm hs hn
    cases h : s.top with
    | none => rw [h, chainLen_none] at hn; omega
    | some e =>
      rw [h, chainLen_some] at hn hs
      have hr := s.size.property
      have hsz : wrapInt (s.size.val - 1) = (chainLen e.next : Int) := by
        rw [wrapInt_eq_self]
        · rw [hs]; push_cast; ring
        · unfold minInt; omega
        · omega
      have hpop := Pop_some s e hm h
      obtain ⟨u, j1, j2, j3, j4⟩ :=
        ih { s with top := e.next, size := GoInt.wrap (s.size.val - 1) }
          (hasMutex_of_eq hm rfl) (by simpa [GoInt.wrap_val] using hsz) (by simpa using hn)
      refine ⟨u, ?_, j2, j3, j4⟩
      simp only [popN, hpop, j1, chain_some]
      simp

/-- `k` calls of `Peek` on a stack whose mutex is set return `k` times what
the first returned and leave the state as it was. -/
theorem peekN_spec {T : Type} [Inhabited T] (s : Stack T) (h : HasMutex s) :
    ∃ r, s.Peek = some (r, s) ∧ ∀ k : Nat, peekN k s = some (List.replicate k r, s) := by
  have hp : ∃ r, s.Peek = some (r, s) := by
    cases ht : s.top with
    | none => exact ⟨_, Peek_none s h ht⟩
    | some e => exact ⟨_, Peek_some s e h ht⟩
  obtain ⟨r, hr⟩ := hp
  refine ⟨r, hr, ?_⟩
  intro k
  induction k with
  | zero => rfl
  | succ k ih => simp only [peekN, hr, ih, List.replicate_succ]

/-! ## Chains that fit -/

theorem runStates_chainLen_le {T : Type} [Inhabited T] (ops : List (Op T)) :
    ∀ (s : Stack T) (sts : List (Stack T)), runStates s ops = some sts →
      ∀ t ∈ sts, chainLen t.top ≤ chainLen s.top + pushCount ops := by
  induction ops with
  | nil =>
    intro s sts h t ht
    simp only [runStates, Option.some.injEq] at h
    rw [← h] at ht; cases ht
  | cons op ops ih =>
    intro s sts h t ht
    obtain ⟨r, t1, ts, h1, h2, rfl⟩ := runStates_cons_some s op ops sts h
    have hstep := step_chainLen s t1 op r h1
    have hcons := pushCount_cons op ops
    rcases List.mem_cons.1 ht with rfl | hmem
    · omega
    · have := ih t1 ts h2 t hmem
      omega

/-- A run from `New()` with at most `maxInt` pushes ends with a chain that fits. -/
theorem fits_of_pushCount {T : Type} [Inhabited T] (ops : List (Op T))
    (rets : List (Ret T)) (u : Stack T) (h : run (New : Stack T) ops = some (rets, u))
    (hp : (pushCount ops : Int) ≤ maxInt) : ChainFits u := by
  have hlen := run_chainLen ops New u rets h
  simp only [New, chainLen_none] at hlen
  unfold ChainFits
  omega

/-- A run from `New()` with at most `maxInt` pushes passes only through chains
that fit. -/
theorem allFit_of_pushCount {T : Type} [Inhabited T] (ops : List (Op T))
    (sts : List (Stack T)) (h : runStates (New : Stack T) ops = some sts)
    (hp : (pushCount ops : Int) ≤ maxInt) : AllFit (New :: sts) := by
  intro t ht
  unfold ChainFits
  rcases List.mem_cons.1 ht with rfl | hmem
  · simp [New, chainLen_none, maxInt]
  · have := runStates_chainLen_le ops New sts h t hmem
    simp only [New, chainLen_none] at this
    omega

/-! ## The claims -/

/-- C1 (LIFO order): starting from `New()`, `Push(v1)`, ..., `Push(vn)` all
return, and the next `n` calls of `Pop()` return `(vn, true)`, ...,
`(v1, true)` in that order, for every `n ≥ 0` and all values. -/
theorem lifo_order {T : Type} [Inhabited T] (vs : List T) :
    ∃ s u, pushAll (New : Stack T) vs = some s
      ∧ popN vs.length s = some (vs.reverse.map (fun v => (v, true)), u) := by
  obtain ⟨t, h1, _, h3⟩ := popN_pushAll (New : Stack T) New_hasMutex vs
  exact ⟨t, New, h1, h3⟩

/-- C2 (size accounting): every sequence of calls on a stack made by `New()`
returns, and then `Size()` returns the number of `Push` calls minus the number
of `Pop` calls that returned `ok = true`; the chain that is left is one that
memory can hold (`ChainFits`). -/
theorem size_accounting {T : Type} [Inhabited T] (ops : List (Op T)) :
    ∃ rets s, run (New : Stack T) ops = some (rets, s)
      ∧ (ChainFits s →
          ∃ n, s.Size = some (n, s)
            ∧ n.val = (pushCount ops : Int) - (okPopCount rets : Int)) := by
  obtain ⟨rets, s, _, h, _, hm, hw⟩ := run_New (T := T) ops
  refine ⟨rets, s, h, fun hfit => ⟨s.size, Size_of_mutex s hm, ?_⟩⟩
  have hlen := run_chainLen ops New s rets h
  simp only [New, chainLen_none] at hlen
  rw [size_exact_of_wrap s hw hfit, hlen]
  push_cast; ring

theorem size_accounting_witness :
    ∃ rets s,
      run (New : Stack Nat) [.push 7, .peek, .push 8, .pop, .pop, .pop, .size, .push 9]
          = some (rets, s)
        ∧ ChainFits s
        ∧ ∃ n, s.Size = some (n, s)
            ∧ n.val = ((3 : Nat) : Int) - (okPopCount rets : Int) ∧ n.val = 1 := by
  obtain ⟨rets, s, h, hp⟩ := size_accounting
    ([.push 7, .peek, .push 8, .pop, .pop, .pop, .size, .push 9] : List (Op Nat))
  have hfit := fits_of_pushCount _ rets s h (by decide)
  obtain ⟨n, h1, h2⟩ := hp hfit
  have hv : (run (New : Stack Nat)
      [.push 7, .peek, .push 8, .pop, .pop, .pop, .size, .push 9]).map
      (fun p => p.2.size.val) = some 1 := by decide
  rw [h] at hv
  simp only [Option.map_some', Option.some.injEq] at hv
  exact ⟨rets, s, h, hfit, n, h1, h2, by rw [(Size_cases s s n h1).1, hv]⟩

/-- C3 (representation invariant): `New()` establishes `Inv` (`size` is the
number of elements of the chain from `top`, and `size = 0` iff `top` is nil);
on a stack with its mutex set each of `IsEmpty`, `Peek`, `Pop`, `Size` and
`Push` returns and preserves it; every run from `New()` returns and `Inv`
holds in the state reached, where `Size()` is the length of the chain. The
chain after a `Push` and the chain of the reached state are ones that memory
can hold (`ChainFits`). -/
theorem rep_invariant (T : Type) [Inhabited T] :
    Inv (New : Stack T)
      ∧ (∀ s : Stack T, HasMutex s → Inv s →
          (∃ b t, s.IsEmpty = some (b, t) ∧ Inv t)
            ∧ (∃ r t, s.Peek = some (r, t) ∧ Inv t)
            ∧ (∃ r t, s.Pop = some (r, t) ∧ Inv t)
            ∧ (∃ n t, s.Size = some (n, t) ∧ Inv t)
            ∧ ∀ v : T, ∃ t, s.Push v = some t ∧ (ChainFits t → Inv t))
      ∧ (∀ ops : List (Op T), ∃ rets s, run (New : Stack T) ops = some (rets, s)
          ∧ (ChainFits s →
              Inv s ∧ ∃ n, s.Size = some (n, s) ∧ n.val = (chainLen s.top : Int))) := by
  refine ⟨?_, ?_, ?_⟩
  · simp [Inv, New, GoInt.zero, chainLen_none]
  · intro s hm hs
    refine ⟨⟨_, s, IsEmpty_of_mutex s hm, hs⟩, ?_, ?_, ⟨_, s, Size_of_mutex s hm, hs⟩, ?_⟩
    · cases h : s.top with
      | none => exact ⟨_, s, Peek_none s hm h, hs⟩
      | some e => exact ⟨_, s, Peek_some s e hm h, hs⟩
    · cases h : s.top with
      | none => exact ⟨_, s, Pop_none s hm h, hs⟩
      | some e =>
        refine ⟨_, _, Pop_some s e hm h, ?_⟩
        obtain ⟨h1, _⟩ := hs
        rw [h, chainLen_some] at h1
        have hr := s.size.property
        have hval : wrapInt (s.size.val - 1) = (chainLen e.next : Int) := by
          rw [wrapInt_eq_self]
          · rw [h1]; push_cast; ring
          · unfold minInt; omega
          · omega
        refine ⟨?_, ?_⟩
        · simpa [GoInt.wrap_val] using hval
        · simp only [GoInt.wrap_val, hval]
          rw [← chainLen_eq_zero]
          omega
    · intro v
      refine ⟨_, Push_of_mutex s v hm, ?_⟩
      intro hv
      obtain ⟨h1, _⟩ := hs
      have hr := chainLen_range _ hv
      simp only [chainLen_some, element.next] at hr
      have hval : wrapInt (s.size.val + 1) = ((chainLen s.top + 1 : Nat) : Int) := by
        rw [h1]
        exact wrapInt_eq_self hr.1 hr.2
      refine ⟨?_, ?_⟩
      · simpa [GoInt.wrap_val, chainLen_some, element.next] using hval
      · simp only [GoInt.wrap_val, hval]
        simp
        omega
  · intro ops
    obtain ⟨rets, s, _, h, _, hm, hw⟩ := run_New (T := T) ops
    refine ⟨rets, s, h, fun hfit => ?_⟩
    have hval := size_exact_of_wrap s hw hfit
    refine ⟨⟨hval, ?_⟩, s.size, Size_of_mutex s hm, hval⟩
    rw [hval, ← chainLen_eq_zero]
    omega

theorem rep_invariant_witness :
    ∃ rets s,
      run (New : Stack Nat) [.push 7, .push 8, .pop, .isEmpty, .push 9] = some (rets, s)
        ∧ ChainFits s ∧ Inv s
        ∧ ∃ n, s.Size = some (n, s) ∧ n.val = (chainLen s.top : Int) := by
  obtain ⟨rets, s, h, hp⟩ := (rep_invariant Nat).2.2
    ([.push 7, .push 8, .pop, .isEmpty, .push 9] : List (Op Nat))
  have hfit := fits_of_pushCount _ rets s h (by decide)
  exact ⟨rets, s, h, hfit, (hp hfit).1, (hp hfit).2⟩

/-- C4 (Pop on a non-empty stack): when `top` is present, `Pop()` returns (the
value of the top element, true), the new top is the removed element's `next`,
so that what remains is the old chain without its first element, and `size`
is the old size minus 1. First for every state with its mutex set, where the
subtraction is the one of `int` (exact above the smallest `int`); then for
every state reached from `New()`, where it is exact (`ChainFits`: a chain
that memory can hold). -/
theorem pop_nonempty (T : Type) [Inhabited T] :
    (∀ (s : Stack T) (e : element T), HasMutex s → s.top = some e →
        ∃ t, s.Pop = some ((e.value, true), t)
          ∧ t.top = e.next
          ∧ chain t.top = (chain s.top).tail
          ∧ t.mutex = s.mutex
          ∧ t.size = GoInt.wrap (s.size.val - 1)
          ∧ (minInt < s.size.val → t.size.val = s.size.val - 1))
      ∧ (∀ ops : List (Op T), ∃ rets s, run (New : Stack T) ops = some (rets, s)
          ∧ ∀ e : element T, s.top = some e → ChainFits s →
              ∃ t, s.Pop = some ((e.value, true), t)
                ∧ t.top = e.next
                ∧ chain t.top = (chain s.top).tail
                ∧ t.size.val = s.size.val - 1) := by
  have hgen : ∀ (s : Stack T) (e : element T), HasMutex s → s.top = some e →
      ∃ t, s.Pop = some ((e.value, true), t)
        ∧ t.top = e.next
        ∧ chain t.top = (chain s.top).tail
        ∧ t.mutex = s.mutex
        ∧ t.size = GoInt.wrap (s.size.val - 1)
        ∧ (minInt < s.size.val → t.size.val = s.size.val - 1) := by
    intro s e hm h
    refine ⟨_, Pop_some s e hm h, rfl, ?_, rfl, rfl, ?_⟩
    · rw [h, chain_some]; rfl
    · intro hlt
      have hr := s.size.property
      simp only [GoInt.wrap_val]
      apply wrapInt_eq_self <;> omega
  refine ⟨hgen, ?_⟩
  intro ops
  obtain ⟨rets, s, _, h, _, hm, hw⟩ := run_New (T := T) ops
  refine ⟨rets, s, h, ?_⟩
  intro e he hfit
  obtain ⟨t, h1, h2, h3, _, _, h6⟩ := hgen s e hm he
  refine ⟨t, h1, h2, h3, h6 ?_⟩
  have hval := size_exact_of_wrap s hw hfit
  rw [hval]
  unfold minInt
  omega

theorem pop_nonempty_witness :
    HasMutex (⟨some (element.mk 23 none), some Mutex.mk, ⟨1, by decide⟩⟩ : Stack Int)
      ∧ ∃ t, (⟨some (element.mk 23 none), some Mutex.mk, ⟨1, by decide⟩⟩ : Stack Int).Pop
            = some ((23, true), t)
          ∧ t.top = none ∧ t.size.val = 1 - 1 := by
  obtain ⟨t, h1, h2, _, _, _, h6⟩ := (pop_nonempty Int).1
    (⟨some (element.mk 23 none), some Mutex.mk, ⟨1, by decide⟩⟩ : Stack Int)
    (element.mk 23 none) (by decide) rfl
  exact ⟨by decide, t, h1, h2, h6 (by decide)⟩

/-- C5, as stated, fails: on the zero value `Stack[T]{}`, whose `top` is
nil, `Peek()` and `Pop()` panic on the nil mutex: neither returns
(zero value, false). -/
theorem empty_outcome_counterexample :
    (zeroStack : Stack Int).top = none
      ∧ (zeroStack : Stack Int).Peek = none
      ∧ (zeroStack : Stack Int).Pop = none
      ∧ (zeroStack : Stack Int).Peek ≠ some ((0, false), zeroStack)
      ∧ (zeroStack : Stack Int).Pop ≠ some ((0, false), zeroStack) :=
  ⟨rfl, rfl, rfl, by simp [zeroStack, Stack.Peek], by simp [zeroStack, Stack.Pop]⟩

/-- C5, amended (empty-stack outcome): when `top` is nil and the mutex is set,
`Peek()` and `Pop()` both return (zero value, false) and leave the state, `top`
and `size`, as it was; this is the case of a stack just returned by `New()`. -/
theorem empty_outcome (T : Type) [Inhabited T] :
    (∀ s : Stack T, HasMutex s → s.top = none →
        s.Peek = some ((default, false), s) ∧ s.Pop = some ((default, false), s))
      ∧ (New : Stack T).Peek = some ((default, false), New)
      ∧ (New : Stack T).Pop = some ((default, false), New) :=
  ⟨fun s hm h => ⟨Peek_none s hm h, Pop_none s hm h⟩,
    Peek_none New New_hasMutex rfl, Pop_none New New_hasMutex rfl⟩

theorem empty_outcome_witness :
    HasMutex (⟨none, some Mutex.mk, ⟨5, by decide⟩⟩ : Stack Nat)
      ∧ (⟨none, some Mutex.mk, ⟨5, by decide⟩⟩ : Stack Nat).top = none
      ∧ (⟨none, some Mutex.mk, ⟨5, by decide⟩⟩ : Stack Nat).Peek
          = some ((0, false), ⟨none, some Mutex.mk, ⟨5, by decide⟩⟩)
      ∧ (⟨none, some Mutex.mk, ⟨5, by decide⟩⟩ : Stack Nat).Pop
          = some ((0, false), ⟨none, some Mutex.mk, ⟨5, by decide⟩⟩) :=
  ⟨by decide, rfl, (empty_outcome Nat).1 _ (by decide) rfl⟩

/-- C6, as stated, fails: on the zero value `Stack[T]{}` `Push(v)` panics on
the nil mutex: it has a failing case, and no element is pushed. -/
theorem push_counterexample :
    (zeroStack : Stack Int).Push 5 = none
      ∧ ¬ ∃ t, (zeroStack : Stack Int).Push 5 = some t :=
  ⟨rfl, by simp [zeroStack, Stack.Push]⟩

/-- C6, amended (Push postcondition): on every state with its mutex set
`Push(v)` returns, it has no failing case there; afterwards the top element
holds `v` and its `next` is the previous top, so the chain is `v` followed by
the old chain, and `size` is the old size plus 1. The addition is the one of
`int`, exact below the largest `int`; in every state reached from `New()` it
is exact (`ChainFits`: a chain that memory can hold). -/
theorem push_post (T : Type) [Inhabited T] :
    (∀ (s : Stack T) (v : T), HasMutex s →
        ∃ t, s.Push v = some t
          ∧ t.top = some (element.mk v s.top)
          ∧ (∃ e, t.top = some e ∧ e.value = v ∧ e.next = s.top)
          ∧ chain t.top = v :: chain s.top
          ∧ t.mutex = s.mutex
          ∧ t.size = GoInt.wrap (s.size.val + 1)
          ∧ (s.size.val < maxInt → t.size.val = s.size.val + 1))
      ∧ (∀ ops : List (Op T), ∃ rets s, run (New : Stack T) ops = some (rets, s)
          ∧ ∀ v : T, ∃ t, s.Push v = some t
              ∧ chain t.top = v :: chain s.top
              ∧ (ChainFits t → t.size.val = s.size.val + 1)) := by
  have hgen : ∀ (s : Stack T) (v : T), HasMutex s →
      ∃ t, s.Push v = some t
        ∧ t.top = some (element.mk v s.top)
        ∧ (∃ e, t.top = some e ∧ e.value = v ∧ e.next = s.top)
        ∧ chain t.top = v :: chain s.top
        ∧ t.mutex = s.mutex
        ∧ t.size = GoInt.wrap (s.size.val + 1)
        ∧ (s.size.val < maxInt → t.size.val = s.size.val + 1) := by
    intro s v hm
    refine ⟨_, Push_of_mutex s v hm, rfl, ⟨_, rfl, rfl, rfl⟩, ?_, rfl, rfl, ?_⟩
    · simp [chain_some, element.value, element.next]
    · intro hlt
      have hr := s.size.property
      simp only [GoInt.wrap_val]
      apply wrapInt_eq_self <;> omega
  refine ⟨hgen, ?_⟩
  intro ops
  obtain ⟨rets, s, _, h, _, hm, hw⟩ := run_New (T := T) ops
  refine ⟨rets, s, h, ?_⟩
  intro v
  obtain ⟨t, h1, h2, _, h4, _, h6, _⟩ := hgen s v hm
  refine ⟨t, h1, h4, ?_⟩
  intro hfit
  have hr := chainLen_range t hfit
  rw [h2, chainLen_some] at hr
  simp only [element.next] at hr
  rw [h6, GoInt.wrap_val, hw, wrapInt_succ]
  have hx : wrapInt ((chainLen s.top : Int) + 1) = (chainLen s.top : Int) + 1 := by
    apply wrapInt_eq_self
    · have := hr.1; push_cast at this; exact this
    · have := hr.2; push_cast at this; exact this
  rw [hx, wrapInt_eq_self]
  · unfold minInt; omega
  · have := hr.2; push_cast at this; omega

theorem push_post_witness :
    HasMutex (⟨some (element.mk 44 none), some Mutex.mk, ⟨1, by decide⟩⟩ : Stack Int)
      ∧ ∃ t, (⟨some (element.mk 44 none), some Mutex.mk, ⟨1, by decide⟩⟩ : Stack Int).Push 66
            = some t
          ∧ chain t.top = [66, 44] ∧ t.size.val = 1 + 1 := by
  obtain ⟨t, h1, _, _, h4, _, _, h7⟩ := (push_post Int).1
    (⟨some (element.mk 44 none), some Mutex.mk, ⟨1, by decide⟩⟩ : Stack Int) 66 (by decide)
  exact ⟨by decide, t, h1, by rw [h4]; rfl, h7 (by decide)⟩

/-- C7, as stated, fails: on the zero value `Stack[T]{}` `Push(v)` panics on
the nil mutex, so no `Peek()` after it returns `(v, true)`. -/
theorem peek_after_push_counterexample :
    ((zeroStack : Stack Int).Push 7).bind Stack.Peek = none
      ∧ ¬ ∃ t, (zeroStack : Stack Int).Push 7 = some t ∧ t.Peek = some ((7, true), t) :=
  ⟨rfl, by simp [zeroStack, Stack.Push]⟩

/-- C7, amended (Peek on a non-empty stack): when `top` is present and the
mutex is set, `Peek()` returns (the value of the top element, true); after
`Push(v)` on any stack whose mutex is set, `Peek()` returns `(v, true)`. -/
theorem peek_nonempty (T : Type) [Inhabited T] :
    (∀ (s : Stack T) (e : element T), HasMutex s → s.top = some e →
        s.Peek = some ((e.value, true), s))
      ∧ (∀ (s : Stack T) (v : T), HasMutex s →
          ∃ t, s.Push v = some t ∧ t.Peek = some ((v, true), t)) :=
  ⟨fun s e hm h => Peek_some s e hm h,
    fun s v hm => ⟨_, Push_of_mutex s v hm,
      Peek_some _ (element.mk v s.top) (hasMutex_of_eq hm rfl) rfl⟩⟩

theorem peek_nonempty_witness :
    HasMutex (⟨some (element.mk 11 none), some Mutex.mk, ⟨1, by decide⟩⟩ : Stack Int)
      ∧ (⟨some (element.mk 11 none), some Mutex.mk, ⟨1, by decide⟩⟩ : Stack Int).Peek
          = some ((11, true), ⟨some (element.mk 11 none), some Mutex.mk, ⟨1, by decide⟩⟩)
      ∧ ∃ t, (New : Stack Int).Push 77 = some t ∧ t.Peek = some ((77, true), t) :=
  ⟨by decide, (peek_nonempty Int).1 _ (element.mk 11 none) (by decide) rfl,
    (peek_nonempty Int).2 New 77 (by decide)⟩

/-- C8 (read-only operations do not mutate), on every state: a `Peek()`,
`IsEmpty()` or `Size()` that returns leaves the state, that is `top`, the chain
and `size`, as it was; with the mutex set all three return, with a nil mutex
all three panic at their first statement. So for every `k ≥ 1`, when `Peek()`
returns, `k` calls of it return the same (value, ok) each time and leave the
state as it was, and a `Pop()` after `k` calls of `Peek()` has the outcome,
result and state, of a `Pop()` after one. -/
theorem read_only {T : Type} [Inhabited T] (s : Stack T) :
    (∀ r t, s.Peek = some (r, t) → t = s)
      ∧ (∀ b t, s.IsEmpty = some (b, t) → t = s)
      ∧ (∀ n t, s.Size = some (n, t) → t = s)
      ∧ (HasMutex s → ∃ r b n,
          s.Peek = some (r, s) ∧ s.IsEmpty = some (b, s) ∧ s.Size = some (n, s))
      ∧ (s.mutex = none → s.Peek = none ∧ s.IsEmpty = none ∧ s.Size = none)
      ∧ ∀ k : Nat, 1 ≤ k →
          (∀ r t, s.Peek = some (r, t) → peekN k s = some (List.replicate k r, s))
            ∧ (peekN k s).bind (fun p => p.2.Pop) = (peekN 1 s).bind (fun p => p.2.Pop) := by
  have hnil : s.mutex = none → ∀ k : Nat, 1 ≤ k → peekN k s = none := by
    intro hm k hk
    cases k with
    | zero => omega
    | succ k => simp only [peekN, Peek_nil s hm]
  refine ⟨Peek_state s, ?_, ?_, ?_, ?_, ?_⟩
  · intro b t h
    by_cases hm : HasMutex s
    · rw [IsEmpty_of_mutex s hm] at h; cases h; rfl
    · rw [IsEmpty_nil s (not_not.1 hm)] at h; cases h
  · intro n t h
    by_cases hm : HasMutex s
    · rw [Size_of_mutex s hm] at h; cases h; rfl
    · rw [Size_nil s (not_not.1 hm)] at h; cases h
  · intro hm
    obtain ⟨r, hr, _⟩ := peekN_spec s hm
    exact ⟨r, _, _, hr, IsEmpty_of_mutex s hm, Size_of_mutex s hm⟩
  · intro hm
    exact ⟨Peek_nil s hm, IsEmpty_nil s hm, Size_nil s hm⟩
  · intro k hk
    by_cases hm : HasMutex s
    · obtain ⟨r, hr, hk2⟩ := peekN_spec s hm
      refine ⟨?_, ?_⟩
      · intro r2 t h
        rw [hr] at h
        cases h
        exact hk2 k
      · rw [hk2 k, hk2 1]; rfl
    · have hm2 : s.mutex = none := not_not.1 hm
      refine ⟨?_, ?_⟩
      · intro r t h
        rw [Peek_nil s hm2] at h; cases h
      · rw [hnil hm2 k hk, hnil hm2 1 (le_refl 1)]

theorem read_only_witness :
    1 ≤ 3
      ∧ (⟨some (element.mk 11 none), some Mutex.mk, ⟨1, by decide⟩⟩ : Stack Int).Peek
          = some ((11, true), ⟨some (element.mk 11 none), some Mutex.mk, ⟨1, by decide⟩⟩)
      ∧ peekN 3 (⟨some (element.mk 11 none), some Mutex.mk, ⟨1, by decide⟩⟩ : Stack Int)
          = some ([(11, true), (11, true), (11, true)],
              ⟨some (element.mk 11 none), some Mutex.mk, ⟨1, by decide⟩⟩) :=
  ⟨by decide, Peek_some _ (element.mk 11 none) (by decide) rfl,
    ((read_only
        (⟨some (element.mk 11 none), some Mutex.mk, ⟨1, by decide⟩⟩ : Stack Int)).2.2.2.2.2
      3 (by decide)).1 (11, true) _ (Peek_some _ (element.mk 11 none) (by decide) rfl)⟩

/-- C9 (IsEmpty versus Size): every run from `New()` returns, and in the state
reached `IsEmpty()` and `Size()` return, `IsEmpty()` true if and only if
`Size()` is 0. -/
theorem isEmpty_iff_size_zero {T : Type} [Inhabited T] (ops : List (Op T)) :
    ∃ rets s, run (New : Stack T) ops = some (rets, s)
      ∧ ∃ b n, s.IsEmpty = some (b, s) ∧ s.Size = some (n, s)
          ∧ (b = true ↔ n.val = 0) := by
  obtain ⟨rets, s, _, h, _, hm, _⟩ := run_New (T := T) ops
  exact ⟨rets, s, h, _, _, IsEmpty_of_mutex s hm, Size_of_mutex s hm, by simp⟩

/-- C10 (IsEmpty reports the absence of elements): every run from `New()`
returns, and in the state reached, with a chain that memory can hold
(`ChainFits`), `IsEmpty()`, `Peek()` and `Pop()` return, and `IsEmpty()` is
true if and only if the stack has no elements, if and only if `Peek()`
returns `ok = false`, if and only if a `Pop()` that follows at once returns
`ok = false`. -/
theorem isEmpty_iff_no_elements {T : Type} [Inhabited T] (ops : List (Op T)) :
    ∃ rets s, run (New : Stack T) ops = some (rets, s)
      ∧ (ChainFits s →
          ∃ b r q t, s.IsEmpty = some (b, s) ∧ s.Peek = some (r, s) ∧ s.Pop = some (q, t)
            ∧ (b = true ↔ chain s.top = [])
            ∧ (b = true ↔ r.2 = false)
            ∧ (b = true ↔ q.2 = false)) := by
  obtain ⟨rets, s, _, h, _, hm, hw⟩ := run_New (T := T) ops
  refine ⟨rets, s, h, fun hfit => ?_⟩
  have hval := size_exact_of_wrap s hw hfit
  have hz : s.size.val = 0 ↔ s.top = none := by
    rw [hval, ← chainLen_eq_zero]; omega
  cases ht : s.top with
  | none =>
    refine ⟨_, _, _, _, IsEmpty_of_mutex s hm, Peek_none s hm ht, Pop_none s hm ht, ?_, ?_, ?_⟩
    · simp [hz.2 ht, chain]
    · simp [hz.2 ht]
    · simp [hz.2 ht]
  | some e =>
    have hne : ¬ s.size.val = 0 := fun h0 => by
      have := hz.1 h0
      rw [ht] at this
      cases this
    refine ⟨_, _, _, _, IsEmpty_of_mutex s hm, Peek_some s e hm ht, Pop_some s e hm ht,
      ?_, ?_, ?_⟩
    · simp [hne, chain_some]
    · simp [hne]
    · simp [hne]

theorem isEmpty_iff_no_elements_witness :
    ∃ rets s, run (New : Stack Nat) [.push 7, .pop, .pop, .size] = some (rets, s)
      ∧ ChainFits s
      ∧ ∃ b r, s.IsEmpty = some (b, s) ∧ s.Peek = some (r, s) ∧ (b = true ↔ r.2 = false) := by
  obtain ⟨rets, s, h, hp⟩ := isEmpty_iff_no_elements
    ([.push 7, .pop, .pop, .size] : List (Op Nat))
  have hfit := fits_of_pushCount _ rets s h (by decide)
  obtain ⟨b, r, _, _, h1, h2, _, _, h5, _⟩ := hp hfit
  exact ⟨rets, s, h, hfit, b, r, h1, h2, h5⟩

/-- C11 (New returns an empty stack): the result of `New()` has `top` nil and
`size` 0 (and its mutex set), so `Size()` returns 0 and `IsEmpty()` returns
true on it. -/
theorem new_empty (T : Type) :
    (New : Stack T).top = none ∧ (New : Stack T).size.val = 0 ∧ HasMutex (New : Stack T)
      ∧ (∃ n, (New : Stack T).Size = some (n, New) ∧ n.val = 0)
      ∧ (New : Stack T).IsEmpty = some (true, New) := by
  refine ⟨rfl, rfl, New_hasMutex, ⟨_, Size_of_mutex New New_hasMutex, rfl⟩, ?_⟩
  rw [IsEmpty_of_mutex New New_hasMutex]
  simp [New, GoInt.zero]

/-- C12 (concrete scenario on an integer stack): from `New()`, `Push(77)` then
`Size() = 1` and `Peek() = (77, true)`; `Push(66)` then `Size() = 2` and
`Peek() = (66, true)`; `Pop() = (66, true)` and `Size() = 1`; `Pop() = (77, true)`
and `Size() = 0`; `Pop() = (0, false)` and `Size() = 0`. -/
theorem concrete_scenario :
    (run (New : Stack Int)
        [.push 77, .size, .peek, .push 66, .size, .peek,
          .pop, .size, .pop, .size, .pop, .size]).map (fun p => p.1.map Ret.obs)
      = some [.push, .size 1, .peek 77 true, .push, .size 2, .peek 66 true,
          .pop 66 true, .size 1, .pop 77 true, .size 0, .pop 0 false, .size 0] := by
  decide

/-- C14 (refinement of a list model): every sequence of calls on `New()`
returns; the elements of the stack read from the top downward are the list of
the model, at the end and after every call, and every return equals the
return of the same call on the model; for the returns, every state passed
through has a chain that memory can hold (`AllFit`). -/
theorem list_refinement {T : Type} [Inhabited T] (ops : List (Op T)) :
    ∃ rets s sts, run (New : Stack T) ops = some (rets, s)
      ∧ runStates (New : Stack T) ops = some sts
      ∧ chain s.top = (modelRun [] ops).2
      ∧ sts.map (fun t => chain t.top) = modelStates [] ops
      ∧ (AllFit (New :: sts) → rets.map Ret.obs = (modelRun [] ops).1) := by
  obtain ⟨rets, s, sts, h, hst, _, _⟩ := run_New (T := T) ops
  refine ⟨rets, s, sts, h, hst, run_chain ops New s rets h, runStates_chain ops New sts hst, ?_⟩
  intro hfit
  exact run_refines ops New s rets sts h hst New_size_wrap hfit

theorem list_refinement_witness :
    ∃ rets s sts,
      run (New : Stack Nat)
          [.push 7, .isEmpty, .push 8, .size, .pop, .peek, .pop, .pop, .isEmpty]
          = some (rets, s)
        ∧ runStates (New : Stack Nat)
            [.push 7, .isEmpty, .push 8, .size, .pop, .peek, .pop, .pop, .isEmpty]
            = some sts
        ∧ AllFit (New :: sts)
        ∧ rets.map Ret.obs
            = [.push, .isEmpty false, .push, .size 2, .pop 8 true, .peek 7 true, .pop 7 true,
                .pop 0 false, .isEmpty true] := by
  obtain ⟨rets, s, sts, h, hst, _, _, hp⟩ := list_refinement
    ([.push 7, .isEmpty, .push 8, .size, .pop, .peek, .pop, .pop, .isEmpty] : List (Op Nat))
  have hfit := allFit_of_pushCount _ sts hst (by decide)
  exact ⟨rets, s, sts, h, hst, hfit, by rw [hp hfit]; decide⟩

/-- C15, as stated, fails: on the zero value `Stack[T]{}`, a state not reached
from `New()`, `Push(v)` panics on the nil mutex, so `Push(v)` followed by
`Pop()` does not return `(v, true)`. -/
theorem push_pop_counterexample :
    ((zeroStack : Stack Int).Push 7).bind Stack.Pop = none
      ∧ ¬ ∃ t, (zeroStack : Stack Int).Push 7 = some t ∧ t.Pop = some ((7, true), zeroStack) :=
  ⟨rfl, by simp [zeroStack, Stack.Push]⟩

/-- C15, amended (Push/Pop round trip): for every state `s` with its mutex
set, reachable from `New()` or not, and every value `v`, `Push(v)` followed by
`Pop()` returns `(v, true)` and leaves the stack with the top, the chain and
the size of `s`. -/
theorem push_pop_roundtrip {T : Type} [Inhabited T] (s : Stack T) (v : T)
    (hm : HasMutex s) :
    ∃ t u, s.Push v = some t ∧ t.Pop = some ((v, true), u)
      ∧ u = s ∧ u.top = s.top ∧ chain u.top = chain s.top ∧ u.size = s.size := by
  obtain ⟨t, h1, _, h3⟩ := Push_Pop s v hm
  exact ⟨t, s, h1, h3, rfl, rfl, rfl, rfl⟩

theorem push_pop_roundtrip_witness :
    HasMutex (⟨none, some Mutex.mk, ⟨maxInt, by decide⟩⟩ : Stack Int)
      ∧ ∃ t u, (⟨none, some Mutex.mk, ⟨maxInt, by decide⟩⟩ : Stack Int).Push 7 = some t
          ∧ t.Pop = some ((7, true), u) ∧ u.size.val = maxInt := by
  obtain ⟨t, u, h1, h2, h3, _⟩ := push_pop_roundtrip
    (⟨none, some Mutex.mk, ⟨maxInt, by decide⟩⟩ : Stack Int) 7 (by decide)
  exact ⟨by decide, t, u, h1, h2, by rw [h3]⟩

/-- C16 (Peek predicts Pop), on every state: `Peek()` and `Pop()` called on the
same state have the same outcome as to (value, ok): with the mutex set both
return and return the same pair, with a nil mutex both panic. -/
theorem peek_predicts_pop {T : Type} [Inhabited T] (s : Stack T) :
    s.Peek.map Prod.fst = s.Pop.map Prod.fst
      ∧ (HasMutex s → ∃ p t u, s.Peek = some (p, t) ∧ s.Pop = some (p, u))
      ∧ (s.mutex = none → s.Peek = none ∧ s.Pop = none) := by
  have hret : HasMutex s → ∃ p t u, s.Peek = some (p, t) ∧ s.Pop = some (p, u) := by
    intro hm
    cases h : s.top with
    | none => exact ⟨_, _, _, Peek_none s hm h, Pop_none s hm h⟩
    | some e => exact ⟨_, _, _, Peek_some s e hm h, Pop_some s e hm h⟩
  refine ⟨?_, hret, fun hm => ⟨Peek_nil s hm, Pop_nil s hm⟩⟩
  by_cases hm : HasMutex s
  · obtain ⟨p, t, u, h1, h2⟩ := hret hm
    rw [h1, h2]; rfl
  · rw [Peek_nil s (not_not.1 hm), Pop_nil s (not_not.1 hm)]

theorem peek_predicts_pop_witness :
    HasMutex (⟨some (element.mk 11 none), some Mutex.mk, ⟨1, by decide⟩⟩ : Stack Int)
      ∧ ∃ p t u,
          (⟨some (element.mk 11 none), some Mutex.mk, ⟨1, by decide⟩⟩ : Stack Int).Peek
              = some (p, t)
            ∧ (⟨some (element.mk 11 none), some Mutex.mk, ⟨1, by decide⟩⟩ : Stack Int).Pop
              = some (p, u) :=
  ⟨by decide, (peek_predicts_pop _).2.1 (by decide)⟩

/-- C17 (draining): every run from `New()` returns, and in the state reached,
with a chain that memory can hold (`ChainFits`), `Size()` is not negative, and
when `Size() = n` the next `n` calls of `Pop()` all return `ok = true`, after
them `IsEmpty()` returns true and `Size()` returns 0, and the `(n+1)`-th
`Pop()` returns (zero value, false). -/
theorem draining {T : Type} [Inhabited T] (ops : List (Op T)) :
    ∃ rets s, run (New : Stack T) ops = some (rets, s)
      ∧ (ChainFits s →
          ∃ m, s.Size = some (m, s) ∧ 0 ≤ m.val
            ∧ ∀ n : Nat, m.val = (n : Int) →
                ∃ rs t, popN n s = some (rs, t)
                  ∧ rs.length = n
                  ∧ (∀ r ∈ rs, r.2 = true)
                  ∧ t.IsEmpty = some (true, t)
                  ∧ (∃ z, t.Size = some (z, t) ∧ z.val = 0)
                  ∧ t.Pop = some ((default, false), t)) := by
  obtain ⟨rets, s, _, h, _, hm, hw⟩ := run_New (T := T) ops
  refine ⟨rets, s, h, fun hfit => ?_⟩
  have hs := size_exact_of_wrap s hw hfit
  refine ⟨s.size, Size_of_mutex s hm, by rw [hs]; omega, ?_⟩
  intro n hn
  have hlen : chainLen s.top = n := by rw [hs] at hn; exact_mod_cast hn
  obtain ⟨u, d1, d2, d3, d4⟩ := popN_drain n s hm hs hlen
  refine ⟨_, u, d1, ?_, ?_, ?_, ⟨_, Size_of_mutex u d2, d4⟩, Pop_none u d2 d3⟩
  · simpa [chainLen] using hlen
  · intro r hr
    obtain ⟨v, _, rfl⟩ := List.mem_map.1 hr
    rfl
  · rw [IsEmpty_of_mutex u d2]; simp [d4]

theorem draining_witness :
    ∃ rets s, run (New : Stack Nat) [.push 7, .push 8, .pop, .push 9, .peek] = some (rets, s)
      ∧ ChainFits s
      ∧ ∃ rs t, popN 2 s = some (rs, t) ∧ rs.length = 2
          ∧ t.IsEmpty = some (true, t) ∧ t.Pop = some ((0, false), t) := by
  obtain ⟨rets, s, h, hp⟩ := draining
    ([.push 7, .push 8, .pop, .push 9, .peek] : List (Op Nat))
  have hfit := fits_of_pushCount _ rets s h (by decide)
  obtain ⟨m, h1, _, h3⟩ := hp hfit
  have hv : (run (New : Stack Nat) [.push 7, .push 8, .pop, .push 9, .peek]).map
      (fun p => p.2.size.val) = some 2 := by decide
  rw [h] at hv
  simp only [Option.map_some', Option.some.injEq] at hv
  have hm : m.val = ((2 : Nat) : Int) := by rw [(Size_cases s s m h1).1, hv]; rfl
  obtain ⟨rs, t, g1, g2, _, g4, _, g6⟩ := h3 2 hm
  exact ⟨rets, s, h, hfit, rs, t, g1, g2, g4, g6⟩

end stack
